import Mathlib

/-!
Shallow embedding of the core of the repo-utils repository
(project selection / manifest resolution in src/repo_project_selector.rs,
and multi-repository history aggregation in src/repo_history/model.rs),
together with theorems settling the specification claims.

File contents of the checkout (project list, manifest xml files) are
modelled as an explicit mapping from path strings to already-deserialized
values; git repositories are modelled by the outcome of each step the
aggregator performs on them.
-/

/-! ### Generic string helpers (model of Rust std string operations) -/

/-- Model of Rust's slice pattern test: does the character list start with the
pattern `pat`? -/
def startsWithChars : List Char → List Char → Bool
  | [], _ => true
  | _ :: _, [] => false
  | p :: ps, c :: cs => p == c && startsWithChars ps cs

/-- Model of Rust's `str::contains` with a string pattern (substring test),
on character lists. -/
def containsSub (pat : List Char) : List Char → Bool
  | [] => pat.isEmpty
  | c :: rest => startsWithChars pat (c :: rest) || containsSub pat rest

/-- Model of Rust's `str::split` with a multi-character separator set:
splits at every separator character, keeping empty pieces. -/
def splitOnSep (sep : Char → Bool) : List Char → List (List Char)
  | [] => [[]]
  | c :: rest =>
    if sep c then [] :: splitOnSep sep rest
    else
      match splitOnSep sep rest with
      | [] => [[c]]
      | g :: gs => (c :: g) :: gs

/-- Model of Rust's `str::to_ascii_lowercase`, as a character list. -/
def lowerChars (s : String) : List Char := s.data.map Char.toLower

/-! ### Manifest data model (src/repo_project_selector.rs) -/

/-- OO representation of a repo-tool's project xml element
(struct `Project` in src/repo_project_selector.rs). -/
structure Project where
  name : String
  path : String
  groups : Option String
deriving DecidableEq

/-- OO representation of a repo-tool's include xml element
(struct `Include` in src/repo_project_selector.rs). -/
structure Include where
  name : String
deriving DecidableEq

/-- OO representation of a repo-tool's manifest xml element
(struct `Manifest` in src/repo_project_selector.rs). -/
structure Manifest where
  projects : List Project
  includes : List Include
deriving DecidableEq

/-- `Manifest::empty`. -/
def Manifest.empty : Manifest := { projects := [], includes := [] }

/-- `Manifest::append`: extends `self.projects` with the other manifest's
projects (the `includes` field is left untouched). -/
def Manifest.append (m : Manifest) (other : Manifest) : Manifest :=
  { m with projects := m.projects ++ other.projects }

/-- `Manifest::contains_project`. -/
def Manifest.contains_project (m : Manifest) (local_path : String) : Bool :=
  m.projects.any (fun p => p.path == local_path)

/-- `Manifest::find_project`. -/
def Manifest.find_project (m : Manifest) (local_path : String) : Option Project :=
  m.projects.find? (fun p => p.path == local_path)

/-- The group list of a project source string: Rust
`groups.split(&[',', ' '][..])` collected into a list of strings. -/
def splitGroups (s : String) : List String :=
  (splitOnSep (fun c => c == ',' || c == ' ') s.data).map String.mk

/-- `Project::in_any_given_group`: the project's group set (source string
split on comma or space, defaulting to the empty string) intersects the
requested groups. -/
def Project.in_any_given_group (p : Project) (test_for_groups : List String) : Bool :=
  let project_groups : List String := splitGroups (p.groups.getD "")
  project_groups.any (fun g => test_for_groups.any (fun other => g == other))

/-! ### Manifest parsing with recursive include resolution

The filesystem is modelled as a mapping from path strings to the
already-deserialized xml content of the file at that path (`none` when the
file is missing or malformed, matching the fallible `File::open` +
`serde_xml_rs::from_reader` sequence).  The unbounded Rust recursion is
modelled with an explicit fuel parameter: `none` on fuel exhaustion, which
can only happen on include chains deeper than the fuel. -/

/-- Filesystem model: path string to deserialized manifest file content. -/
def ManifestFs : Type := String → Option Manifest

/-- Model of Rust's `Path::with_file_name`: drop the final path component
and attach `name` instead. -/
def withFileName (path : String) (name : String) : String :=
  String.mk ((path.data.reverse.dropWhile (fun c => !(c == '/'))).reverse) ++ name

/-- The fixed manifests folder (`find_repo_manifests_folder`), as a path
string to be joined with a file name. -/
def manifestsDir : String := ".repo/manifests/"

/-- `parse` (src/repo_project_selector.rs): deserialize the file at `path`,
then for each include resolve the sibling path `path.with_file_name(name)`,
recursively parse it and merge it into the parent via `append`. -/
def parse (fs : ManifestFs) : Nat → String → Option Manifest
  | 0, _ => none
  | fuel + 1, path =>
    match fs path with
    | none => none
    | some raw =>
      raw.includes.foldlM
        (fun m inc =>
          (parse fs fuel (withFileName path inc.name)).map (fun child => m.append child))
        raw

/-- `parse_manifest` (src/repo_project_selector.rs): like `parse`, but each
include is resolved under the fixed manifests folder instead of as a
sibling of the current file, and the child itself is parsed with `parse`. -/
def parse_manifest (fs : ManifestFs) (fuel : Nat) (path : String) : Option Manifest :=
  match fs path with
  | none => none
  | some raw =>
    raw.includes.foldlM
      (fun m inc =>
        (parse fs fuel (manifestsDir ++ inc.name)).map (fun child => m.append child))
      raw

/-- Modelled from the spec (spec 4.1 and claim C2): the resolved project
set of a manifest file is the union, via append in order, of the file's own
project elements and, recursively, the resolved project sets of all of its
includes. -/
def specResolvedProjects (fs : ManifestFs) : Nat → String → Option (List Project)
  | 0, _ => none
  | fuel + 1, path =>
    match fs path with
    | none => none
    | some raw =>
      match raw.includes.mapM
          (fun inc => specResolvedProjects fs fuel (withFileName path inc.name)) with
      | none => none
      | some childProjects => some (raw.projects ++ childProjects.flatten)

/-! ### Project selection (src/repo_project_selector.rs) -/

/-- Environment of one `select_projects` call: the content of
`.repo/project.list` as a list of lines (`none` if missing), and the
filesystem holding the manifest xml files. -/
structure RepoEnv where
  project_list : Option (List String)
  fs : ManifestFs

/-- Path of the primary fleet manifest parsed by the group filter. -/
def repoManifestPath : String := ".repo/manifest.xml"

/-- The per-path keep decision of the group filter:
`project.is_some() && project.unwrap().in_any_given_group(&groups)`. -/
def group_keep (manifest : Manifest) (groups : List String) (path : String) : Bool :=
  match manifest.find_project path with
  | some project => project.in_any_given_group groups
  | none => false

/-- The per-path keep decision of the manifest filter:
`aggregated_manifest.contains_project(p)`. -/
def manifest_keep (aggregated : Manifest) (path : String) : Bool :=
  aggregated.contains_project path

/-- The aggregation loop of the manifest filter: parse each named manifest
file under the manifests folder and `append` it into the accumulator. -/
def aggregateManifest (fs : ManifestFs) (fuel : Nat) :
    List String → Manifest → Option Manifest
  | [], acc => some acc
  | f :: rest, acc =>
    match parse_manifest fs fuel (manifestsDir ++ f) with
    | none => none
    | some m => aggregateManifest fs fuel rest (acc.append m)

/-- The filtering part of `select_projects`: read the project list, then
apply the optional group filter and the optional manifest-file filter. -/
def select_filtered (env : RepoEnv) (fuel : Nat)
    (filter_by_groups : Option (List String))
    (filter_by_manifest_files : Option (List String)) : Option (List String) :=
  match env.project_list with
  | none => none
  | some projects_on_disk =>
    let afterGroups : Option (List String) :=
      match filter_by_groups with
      | none => some projects_on_disk
      | some groups =>
        match parse_manifest env.fs fuel repoManifestPath with
        | none => none
        | some manifest =>
          some (projects_on_disk.filter (fun path => group_keep manifest groups path))
    match afterGroups with
    | none => none
    | some selected1 =>
      match filter_by_manifest_files with
      | none => some selected1
      | some manifest_files =>
        match aggregateManifest env.fs fuel manifest_files Manifest.empty with
        | none => none
        | some aggregated =>
          some (selected1.filter (fun p => manifest_keep aggregated p))

/-- `select_projects` (src/repo_project_selector.rs): the filtered list,
with the literal path `.repo/manifests` pushed at the end when
`include_manifest_repo` is set. -/
def select_projects (env : RepoEnv) (fuel : Nat) (include_manifest_repo : Bool)
    (filter_by_groups : Option (List String))
    (filter_by_manifest_files : Option (List String)) : Option (List String) :=
  (select_filtered env fuel filter_by_groups filter_by_manifest_files).map
    (fun selected =>
      if include_manifest_repo then selected ++ [".repo/manifests"] else selected)

/-! ### Commit classification (src/repo_history/model.rs)

`utils::as_datetime_utc` is not part of the sources at hand; per the spec
(4.3) the classifier computes the age of a commit as the whole-day
difference between the wall-clock now and the commit time.  Both instants
are modelled as seconds since the epoch (the git commit time is an i64 of
seconds); the whole-day count of a chrono duration truncates toward zero,
and the Rust code then casts the i64 day count to u32 with wrapping. -/

/-- Classifier configuration (struct `Classifier`): `age` holds the u32
`max_age_days`. -/
structure Classifier where
  age : Nat
  author : Option String
  message : Option String
deriving DecidableEq

/-- The data the classifier and `RepoCommit::from` read from a git2
commit object. The `Option` fields model git2 accessors that return
`Option<&str>`. -/
structure CommitData where
  time : Int
  id : Nat
  summary : Option String
  authorName : Option String
  committerName : Option String
  message : Option String
deriving DecidableEq

/-- Rust's `as u32` cast of an i64: the low 32 bits. -/
def u32OfI64 (d : Int) : Nat := (d % (2 ^ 32 : Int)).toNat

/-- Modelled from the spec: `diff.num_days()` where
`diff = now.signed_duration_since(commit_time_as_utc)` — the whole-day
count of the signed second difference, truncated toward zero. -/
def ageDays (now : Int) (commitTime : Int) : Int := (now - commitTime).tdiv 86400

/-- The message filter conjunct of `Classifier::classify`: commit message
(ascii-lowercased, defaulting to the empty string) contains the configured
pattern; vacuously true when no message filter is configured. -/
def messagePasses (c : Classifier) (commit : CommitData) : Bool :=
  match c.message with
  | none => true
  | some pat => containsSub pat.data (lowerChars (commit.message.getD ""))

/-- The author filter conjunct of `Classifier::classify`: commit author
name (ascii-lowercased, defaulting to the empty string) contains the
configured pattern; vacuously true when no author filter is configured. -/
def authorPasses (c : Classifier) (commit : CommitData) : Bool :=
  match c.author with
  | none => true
  | some pat => containsSub pat.data (lowerChars (commit.authorName.getD ""))

/-- `Classifier::classify`: the window test compares the i64 day count,
cast to u32, against `max_age_days`; `abort` is its negation; the optional
message filter and then the optional author filter are and-ed into
`include` only. -/
def classify (c : Classifier) (now : Int) (commit : CommitData) : Bool × Bool :=
  let includeW : Bool := u32OfI64 (ageDays now commit.time) ≤ c.age
  let abort : Bool := !includeW
  let include1 : Bool :=
    match c.message with
    | none => includeW
    | some pat => includeW && containsSub pat.data (lowerChars (commit.message.getD ""))
  let include2 : Bool :=
    match c.author with
    | none => include1
    | some pat => include1 && containsSub pat.data (lowerChars (commit.authorName.getD ""))
  (include2, abort)

/-! ### Multi-repository history aggregation (src/repo_history/model.rs) -/

/-- Representation of a local git repository (struct `Repo`). -/
structure Repo where
  abs_path : String
  rel_path : String
  description : String
deriving DecidableEq

/-- A git commit associated with a local repository (struct `RepoCommit`). -/
structure RepoCommit where
  repo : Repo
  commit_time : Int
  summary : String
  author : String
  committer : String
  commit_id : Nat
  message : String
deriving DecidableEq

/-- `RepoCommit::from`, with git2's `Option` accessors defaulted exactly as
in the source. -/
def RepoCommit.from (repo : Repo) (c : CommitData) : RepoCommit :=
  { repo := repo
    commit_time := c.time
    summary := c.summary.getD "None"
    author := c.authorName.getD "None"
    committer := c.committerName.getD "None"
    commit_id := c.id
    message := c.message.getD "" }

/-- Outcome of the per-repository git calls of the walk phase: each of the
three fallible setup steps may fail, otherwise the revwalk yields a list of
commit ids, each resolving to commit data or not (`none` models
`commit_id.and_then(find_commit)` failing). -/
inductive RepoScan where
  | openFailed
  | revwalkFailed
  | pushHeadFailed
  | walk (items : List (Option CommitData))
deriving DecidableEq

/-- The revwalk loop of `MultiRepoHistory::from` for one repository:
unresolvable ids bump the missing counter and continue; resolved commits
are classified, recorded when `include`, and stop the walk when `abort`.
Returns the repository's local commit list and its missing-id count. -/
def walkCommits (c : Classifier) (now : Int) (repo : Repo) :
    List (Option CommitData) → List RepoCommit × Nat
  | [] => ([], 0)
  | none :: rest =>
    let r := walkCommits c now repo rest
    (r.1, r.2 + 1)
  | some cd :: rest =>
    let cls := classify c now cd
    if cls.2 then
      (if cls.1 then [RepoCommit.from repo cd] else [], 0)
    else
      let r := walkCommits c now repo rest
      (if cls.1 then RepoCommit.from repo cd :: r.1 else r.1, r.2)

/-- The walk-phase result of one repository: a failed setup step
contributes nothing, otherwise the revwalk loop runs. -/
def scanRepo (c : Classifier) (now : Int) (entry : Repo × RepoScan) :
    List RepoCommit × Nat :=
  match entry.2 with
  | .openFailed => ([], 0)
  | .revwalkFailed => ([], 0)
  | .pushHeadFailed => ([], 0)
  | .walk items => walkCommits c now entry.1 items

/-- The items of a repository's revwalk stream that the loop actually
processes: everything up to and including the first resolved commit whose
classification signals `abort` (unresolvable ids never stop the walk). -/
def processedItems (c : Classifier) (now : Int) :
    List (Option CommitData) → List (Option CommitData)
  | [] => []
  | none :: rest => none :: processedItems c now rest
  | some cd :: rest =>
    if (classify c now cd).2 then [some cd]
    else some cd :: processedItems c now rest

/-- A history of commits across multiple repositories
(struct `MultiRepoHistory`). -/
structure MultiRepoHistory where
  repos : List Repo
  commits : List RepoCommit
  locally_missing_commits : Nat
deriving DecidableEq

/-- The descending-time order used by the merge phase: the comparator
`a.commit_time.cmp(&b.commit_time).reverse()`. -/
def timeDesc (a b : RepoCommit) : Prop := b.commit_time ≤ a.commit_time

instance : DecidableRel timeDesc := fun a b => Int.decLe b.commit_time a.commit_time

instance : IsTotal RepoCommit timeDesc :=
  ⟨fun a b => Int.le_total b.commit_time a.commit_time⟩

instance : IsTrans RepoCommit timeDesc :=
  ⟨fun _ _ _ hab hbc => le_trans hbc hab⟩

/-- The merge phase of `MultiRepoHistory::from`: flatten the per-repository
lists and sort descending by commit time, and sum the per-repository
missing counts into the shared counter's final value. -/
def aggregate (c : Classifier) (now : Int) (entries : List (Repo × RepoScan)) :
    MultiRepoHistory :=
  let results := entries.map (scanRepo c now)
  { repos := entries.map Prod.fst
    commits := List.insertionSort timeDesc (results.map Prod.fst).flatten
    locally_missing_commits := (results.map Prod.snd).sum }

/-- `MultiRepoHistory::from`: the whole aggregation run. Per-repository
failures are absorbed by `scanRepo`; the function itself always returns
`Ok` (the worker pool is built by the caller, before this runs). -/
def MultiRepoHistory.from (c : Classifier) (now : Int)
    (entries : List (Repo × RepoScan)) : Except String MultiRepoHistory :=
  Except.ok (aggregate c now entries)

/-! ### Concrete fixtures (used by witnesses and counterexamples) -/

/-- The primary fleet manifest of the coffeemaker fixture tree
(tests/data/repo_project_selector). -/
def fixturePrimary : Manifest :=
  { projects :=
      [⟨"coffeemaker", "coffeemaker", some "toplevel"⟩,
       ⟨"boiler", "boiler", some "electrical"⟩,
       ⟨"pressureliefvalve", "pressureliefvalve", some "mechanical"⟩,
       ⟨"pot", "pot", some "mechanical"⟩,
       ⟨"startbutton", "startbutton", some "electrical"⟩]
    includes := [] }

/-- The libs.xml manifest of the coffeemaker fixture tree. -/
def fixtureLibs : Manifest :=
  { projects :=
      [⟨"boiler", "boiler", some "electrical"⟩,
       ⟨"pressureliefvalve", "pressureliefvalve", some "mechanical"⟩,
       ⟨"pot", "pot", some "mechanical"⟩,
       ⟨"startbutton", "startbutton", some "electrical"⟩]
    includes := [] }

/-- Filesystem of the coffeemaker fixture tree. -/
def fixtureFs : ManifestFs := fun path =>
  if path = ".repo/manifest.xml" then some fixturePrimary
  else if path = ".repo/manifests/libs.xml" then some fixtureLibs
  else none

/-- Selection environment of the coffeemaker fixture tree. -/
def fixtureEnv : RepoEnv :=
  { project_list :=
      some ["coffeemaker", "boiler", "pressureliefvalve", "pot", "startbutton"]
    fs := fixtureFs }

/-- A child manifest file with one project and no includes. -/
def exChild : Manifest := { projects := [⟨"p2", "p2", none⟩], includes := [] }

/-- A root manifest file with one project and one include. -/
def exRoot : Manifest :=
  { projects := [⟨"p1", "p1", none⟩], includes := [⟨"child.xml"⟩] }

/-- A two-file filesystem: a root manifest including a child manifest. -/
def exFs : ManifestFs := fun path =>
  if path = "root.xml" then some exRoot
  else if path = "child.xml" then some exChild
  else none

/-- Commit data carrying only a commit time. -/
def exCommitAt (t : Int) : CommitData := ⟨t, 0, none, none, none, none⟩

/-- A pass-everything classifier with a 365-day window. -/
def exClassifier : Classifier := ⟨365, none, none⟩

/-- Two scanned repositories: R1 with commits at t = 30, 20, 10 and R2 with
commits at t = 25, 15 (walks yield them newest first). -/
def exEntries : List (Repo × RepoScan) :=
  [(⟨"/r1", "r1", "r1"⟩,
    RepoScan.walk [some (exCommitAt 30), some (exCommitAt 20), some (exCommitAt 10)]),
   (⟨"/r2", "r2", "r2"⟩,
    RepoScan.walk [some (exCommitAt 25), some (exCommitAt 15)])]

/-! ### Helper lemmas -/

/-- `classify` decomposed: `include` is the window test and-ed with the two
optional substring filters, `abort` is the negated window test. -/
theorem classify_eq (c : Classifier) (now : Int) (commit : CommitData) :
    classify c now commit
      = (decide (u32OfI64 (ageDays now commit.time) ≤ c.age) && messagePasses c commit
          && authorPasses c commit,
         !decide (u32OfI64 (ageDays now commit.time) ≤ c.age)) := by
  unfold classify messagePasses authorPasses
  cases c.message <;> cases c.author <;> simp

/-- The u32 cast is the identity on day counts in `[0, 2^32)`. -/
theorem u32OfI64_eq_toNat {d : Int} (h0 : 0 ≤ d) (h1 : d < 2 ^ 32) :
    u32OfI64 d = d.toNat := by
  unfold u32OfI64
  rw [Int.emod_eq_of_lt h0 h1]

/-- The u32 cast wraps negative day counts in `(-2^32, 0)` to `d + 2^32`. -/
theorem u32OfI64_of_neg {d : Int} (h0 : -(2 ^ 32) < d) (h1 : d < 0) :
    (u32OfI64 d : Int) = d + 2 ^ 32 := by
  unfold u32OfI64
  have hmod : d % 2 ^ 32 = d + 2 ^ 32 := by
    have hself : (d + 2 ^ 32 * 1) % 2 ^ 32 = d % 2 ^ 32 :=
      Int.add_mul_emod_self_left d (2 ^ 32) 1
    have hin : (d + 2 ^ 32) % 2 ^ 32 = d + 2 ^ 32 :=
      Int.emod_eq_of_lt (by omega) (by omega)
    omega
  rw [hmod, Int.toNat_of_nonneg (by omega)]

/-! ### Claim C1 -/

/-- C1: for every commit whose day age is representable (below 2^32 days,
always true for datetime-representable instants), `Classifier::classify`
returns `(include = false, abort = true)` when the commit is older than
`max_age_days`; `(include = false, abort = false)` when the commit is
within the window but a configured author or message substring filter
fails; `(include = true, abort = false)` when the commit is within the
window and every configured filter matches; and the author/message filters
never change the `abort` component. -/
theorem classify_window_and_filters (c : Classifier) (now : Int) (commit : CommitData)
    (hage : c.age < 2 ^ 32) (hrep : ageDays now commit.time < 2 ^ 32) :
    ((c.age : Int) < ageDays now commit.time → classify c now commit = (false, true))
    ∧ (0 ≤ ageDays now commit.time → ageDays now commit.time ≤ (c.age : Int) →
        (messagePasses c commit && authorPasses c commit) = false →
        classify c now commit = (false, false))
    ∧ (0 ≤ ageDays now commit.time → ageDays now commit.time ≤ (c.age : Int) →
        (messagePasses c commit && authorPasses c commit) = true →
        classify c now commit = (true, false))
    ∧ (classify c now commit).2
        = (classify { age := c.age, author := none, message := none } now commit).2 := by
  refine ⟨?_, ?_, ?_, ?_⟩
  · intro hold
    have h0 : 0 ≤ ageDays now commit.time := le_trans (Int.natCast_nonneg c.age) (le_of_lt hold)
    have hcast : u32OfI64 (ageDays now commit.time) = (ageDays now commit.time).toNat :=
      u32OfI64_eq_toNat h0 hrep
    have hgt : ¬ (u32OfI64 (ageDays now commit.time) ≤ c.age) := by
      rw [hcast]; omega
    rw [classify_eq]
    simp [hgt]
  · intro h0 hin hfail
    have hcast : u32OfI64 (ageDays now commit.time) = (ageDays now commit.time).toNat :=
      u32OfI64_eq_toNat h0 hrep
    have hle : u32OfI64 (ageDays now commit.time) ≤ c.age := by
      rw [hcast]; omega
    rw [classify_eq]
    simp [hle, Bool.and_assoc, hfail]
  · intro h0 hin hpass
    have hcast : u32OfI64 (ageDays now commit.time) = (ageDays now commit.time).toNat :=
      u32OfI64_eq_toNat h0 hrep
    have hle : u32OfI64 (ageDays now commit.time) ≤ c.age := by
      rw [hcast]; omega
    rw [classify_eq]
    simp [hle, Bool.and_assoc, hpass]
  · rw [classify_eq, classify_eq]

/-- Witness for C1: a commit 6 days old against a 5-day window with no
filters is classified `(include = false, abort = true)`. -/
theorem classify_window_and_filters_witness :
    classify ⟨5, none, none⟩ (86400 * 6) (exCommitAt 0) = (false, true) :=
  (classify_window_and_filters ⟨5, none, none⟩ (86400 * 6) (exCommitAt 0)
    (by decide) (by decide)).1 (by decide)

/-! ### Claim C10 -/

/-- C10 counterexample: a commit one hour in the future (commit time 3600,
now 0) has a signed day difference of 0 (truncation toward zero), so the
cast does not wrap and `classify` returns `(include = true, abort = false)`,
not `(include = false, abort = true)` as the claim states. -/
theorem classify_future_commit_counterexample :
    (0 : Int) < 3600
    ∧ classify ⟨5, none, none⟩ 0 (exCommitAt 3600) ≠ (false, true)
    ∧ classify ⟨5, none, none⟩ 0 (exCommitAt 3600) = (true, false) := by
  refine ⟨by decide, by decide, by decide⟩

/-- C10 amended: for every commit lying at least one full day in the
future (signed day difference at most -1), provided the wrapped value
`day_diff + 2^32` still exceeds `max_age_days` (true for any realistic
`max_age_days`), the i64 to u32 cast wraps to a value above the window and
`classify` returns `(include = false, abort = true)`. -/
theorem classify_future_commit (c : Classifier) (now : Int) (commit : CommitData)
    (hday : ageDays now commit.time ≤ -1)
    (hwrap : (c.age : Int) - 2 ^ 32 < ageDays now commit.time) :
    classify c now commit = (false, true) := by
  have h0 : -(2 ^ 32) < ageDays now commit.time := by omega
  have h1 : ageDays now commit.time < 0 := by omega
  have hcast : (u32OfI64 (ageDays now commit.time) : Int) = ageDays now commit.time + 2 ^ 32 :=
    u32OfI64_of_neg h0 h1
  have hgt : ¬ (u32OfI64 (ageDays now commit.time) ≤ c.age) := by omega
  rw [classify_eq]
  simp [hgt]

/-- Witness for C10's amended claim: a commit two full days in the future
against a 5-day window is classified `(include = false, abort = true)`. -/
theorem classify_future_commit_witness :
    classify ⟨5, none, none⟩ 0 (exCommitAt (86400 * 2)) = (false, true) :=
  classify_future_commit ⟨5, none, none⟩ 0 (exCommitAt (86400 * 2))
    (by decide) (by decide)

/-! ### Claim C8 -/

/-- C8: with no group filter, no manifest filter and
`include_manifest_repo = false`, `select_projects` returns exactly the
project list file's lines in file order (in particular an empty file gives
the success value `some []`, not an error). -/
theorem select_no_filters (env : RepoEnv) (fuel : Nat) (l : List String)
    (h : env.project_list = some l) :
    select_projects env fuel false none none = some l := by
  simp [select_projects, select_filtered, h]

/-- Witness for C8: a two-line project list is returned as-is. -/
theorem select_no_filters_witness :
    select_projects ⟨some ["a", "b"], fun _ => none⟩ 0 false none none = some ["a", "b"] :=
  select_no_filters ⟨some ["a", "b"], fun _ => none⟩ 0 ["a", "b"] rfl

/-! ### Claim C9 -/

/-- C9: whenever `select_projects` with `include_manifest_repo = true`
succeeds, its result is the result of the same call without the flag with
the literal path `.repo/manifests` appended as the last element, exactly
once; the appended entry is never subject to the group or manifest
filters. -/
theorem select_include_manifest_repo (env : RepoEnv) (fuel : Nat)
    (gs mfs : Option (List String)) (r : List String)
    (h : select_projects env fuel true gs mfs = some r) :
    ∃ r0, select_projects env fuel false gs mfs = some r0
      ∧ r = r0 ++ [".repo/manifests"] := by
  unfold select_projects at h ⊢
  cases hf : select_filtered env fuel gs mfs with
  | none => rw [hf] at h; simp at h
  | some sel =>
    rw [hf] at h
    simp at h
    exact ⟨sel, by simp, by simp [← h]⟩

/-- Witness for C9: on the coffeemaker fixture with no filters, the flag
appends `.repo/manifests` after the file's five lines. -/
theorem select_include_manifest_repo_witness :
    ∃ r0, select_projects fixtureEnv 1 false none none = some r0
      ∧ ["coffeemaker", "boiler", "pressureliefvalve", "pot", "startbutton",
          ".repo/manifests"] = r0 ++ [".repo/manifests"] :=
  select_include_manifest_repo fixtureEnv 1 none none
    ["coffeemaker", "boiler", "pressureliefvalve", "pot", "startbutton",
      ".repo/manifests"] (by decide)

/-! ### Claim C3 -/

/-- C3: when both a group filter and a manifest filter are given and the
call succeeds, the result is the project list filtered by the logical AND
of the two independently computed keep decisions — the set-intersection of
the two keep-sets — and equals applying the two filters in either order. -/
theorem select_both_filters (env : RepoEnv) (fuel : Nat)
    (groups files r : List String)
    (h : select_filtered env fuel (some groups) (some files) = some r) :
    ∃ l manifest aggregated,
      env.project_list = some l
      ∧ parse_manifest env.fs fuel repoManifestPath = some manifest
      ∧ aggregateManifest env.fs fuel files Manifest.empty = some aggregated
      ∧ r = l.filter (fun p => group_keep manifest groups p && manifest_keep aggregated p)
      ∧ r = (l.filter (fun p => group_keep manifest groups p)).filter
              (fun p => manifest_keep aggregated p)
      ∧ r = (l.filter (fun p => manifest_keep aggregated p)).filter
              (fun p => group_keep manifest groups p) := by
  unfold select_filtered at h
  cases hl : env.project_list with
  | none => rw [hl] at h; simp at h
  | some l =>
    rw [hl] at h
    cases hm : parse_manifest env.fs fuel repoManifestPath with
    | none => rw [hm] at h; simp at h
    | some manifest =>
      rw [hm] at h
      cases ha : aggregateManifest env.fs fuel files Manifest.empty with
      | none => simp [ha] at h
      | some aggregated =>
        simp only [ha] at h
        simp at h
        have h1 : (l.filter (fun p => group_keep manifest groups p)).filter
              (fun p => manifest_keep aggregated p)
            = l.filter (fun p => manifest_keep aggregated p && group_keep manifest groups p) :=
          List.filter_filter _ _
        have h2 : l.filter (fun p => manifest_keep aggregated p && group_keep manifest groups p)
            = l.filter (fun p => group_keep manifest groups p && manifest_keep aggregated p) :=
          List.filter_congr (fun a _ => Bool.and_comm _ _)
        have h3 : (l.filter (fun p => manifest_keep aggregated p)).filter
              (fun p => group_keep manifest groups p)
            = l.filter (fun p => group_keep manifest groups p && manifest_keep aggregated p) :=
          List.filter_filter _ _
        refine ⟨l, manifest, aggregated, rfl, rfl, rfl, ?_, ?_, ?_⟩
        · rw [← h]; exact h2
        · rw [← h, h1]
        · rw [← h, h3]; exact h2

/-- Witness for C3: the coffeemaker fixture with groups
`toplevel, electrical` and manifest `libs.xml` selects exactly
`boiler, startbutton`. -/
theorem select_both_filters_witness :
    ∃ l manifest aggregated,
      fixtureEnv.project_list = some l
      ∧ parse_manifest fixtureEnv.fs 1 repoManifestPath = some manifest
      ∧ aggregateManifest fixtureEnv.fs 1 ["libs.xml"] Manifest.empty = some aggregated
      ∧ ["boiler", "startbutton"]
          = l.filter (fun p => group_keep manifest ["toplevel", "electrical"] p
              && manifest_keep aggregated p)
      ∧ ["boiler", "startbutton"]
          = (l.filter (fun p => group_keep manifest ["toplevel", "electrical"] p)).filter
              (fun p => manifest_keep aggregated p)
      ∧ ["boiler", "startbutton"]
          = (l.filter (fun p => manifest_keep aggregated p)).filter
              (fun p => group_keep manifest ["toplevel", "electrical"] p) :=
  select_both_filters fixtureEnv 1 ["toplevel", "electrical"] ["libs.xml"]
    ["boiler", "startbutton"] (by decide)

/-! ### Claim C5 -/

/-- C5: with only a group filter, `select_projects` keeps a path exactly
when the primary fleet manifest contains a project at that path whose
group set (source string split on comma or space) has at least one element
among the requested groups; a path absent from the primary manifest is
dropped. -/
theorem select_group_filter_only (env : RepoEnv) (fuel : Nat) (groups : List String)
    (l : List String) (manifest : Manifest)
    (hl : env.project_list = some l)
    (hm : parse_manifest env.fs fuel repoManifestPath = some manifest) :
    select_filtered env fuel (some groups) none
      = some (l.filter (fun p => group_keep manifest groups p))
    ∧ ∀ p, group_keep manifest groups p = true ↔
        ∃ proj, manifest.find_project p = some proj
          ∧ ∃ g, g ∈ splitGroups (proj.groups.getD "") ∧ g ∈ groups := by
  constructor
  · simp [select_filtered, hl, hm]
  · intro p
    unfold group_keep
    cases hf : manifest.find_project p with
    | none => simp
    | some proj =>
      unfold Project.in_any_given_group
      simp [List.any_eq_true, beq_iff_eq]

/-- Witness for C5: on the coffeemaker fixture, requesting group
`electrical` filters the project list through the primary manifest's
group sets. -/
theorem select_group_filter_only_witness :
    select_filtered fixtureEnv 1 (some ["electrical"]) none
      = some (["coffeemaker", "boiler", "pressureliefvalve", "pot", "startbutton"].filter
          (fun p => group_keep fixturePrimary ["electrical"] p)) :=
  (select_group_filter_only fixtureEnv 1 ["electrical"]
    ["coffeemaker", "boiler", "pressureliefvalve", "pot", "startbutton"]
    fixturePrimary rfl (by decide)).1

/-! ### Claim C4 -/

/-- C4: the `commits` field of the aggregation result is a permutation of
the flattened per-repository commit lists, sorted by commit time
descending; on the example fleet (R1 with commits at t = 10, 20, 30 and R2
at t = 15, 25, all matching) the merged sequence has times exactly
`[30, 25, 20, 15, 10]`.  Ties are not constrained beyond the time key. -/
theorem aggregate_merge_sorted :
    (∀ (c : Classifier) (now : Int) (entries : List (Repo × RepoScan)),
      ((aggregate c now entries).commits).Perm
          ((entries.map (fun e => (scanRepo c now e).1)).flatten)
        ∧ List.Sorted timeDesc (aggregate c now entries).commits)
    ∧ (aggregate exClassifier 30 exEntries).commits.map RepoCommit.commit_time
        = [30, 25, 20, 15, 10] := by
  refine ⟨fun c now entries => ⟨?_, ?_⟩, by decide⟩
  · unfold aggregate
    simp only [List.map_map, Function.comp]
    exact List.perm_insertionSort _ _
  · unfold aggregate
    exact List.sorted_insertionSort _ _

/-! ### Claim C6 -/

/-- C6: the aggregation entry point always returns `Ok` (the worker pool
is built by the caller before it runs); a repository whose open, revwalk
creation, or HEAD push fails contributes zero commits and zero missing
ids, and removing such a repository from the fleet changes neither the
merged commit sequence nor the missing count of the other repositories. -/
theorem aggregate_repo_failures_nonfatal :
    (∀ (c : Classifier) (now : Int) (entries : List (Repo × RepoScan)),
        MultiRepoHistory.from c now entries = Except.ok (aggregate c now entries))
    ∧ (∀ (c : Classifier) (now : Int) (pre post : List (Repo × RepoScan))
        (repo : Repo) (st : RepoScan),
        st = RepoScan.openFailed ∨ st = RepoScan.revwalkFailed ∨
          st = RepoScan.pushHeadFailed →
        scanRepo c now (repo, st) = ([], 0)
        ∧ (aggregate c now (pre ++ (repo, st) :: post)).commits
            = (aggregate c now (pre ++ post)).commits
        ∧ (aggregate c now (pre ++ (repo, st) :: post)).locally_missing_commits
            = (aggregate c now (pre ++ post)).locally_missing_commits) := by
  constructor
  · intro c now entries; rfl
  · intro c now pre post repo st hst
    have hscan : scanRepo c now (repo, st) = ([], 0) := by
      rcases hst with h | h | h <;> subst h <;> rfl
    refine ⟨hscan, ?_, ?_⟩
    · unfold aggregate
      simp [hscan]
    · unfold aggregate
      simp [hscan]

/-- Witness for C6: prepending a repository that fails to open to the
example fleet leaves the merged commits and the missing count unchanged. -/
theorem aggregate_repo_failures_nonfatal_witness :
    scanRepo exClassifier 30 (⟨"/r0", "r0", "r0"⟩, RepoScan.openFailed) = ([], 0)
    ∧ (aggregate exClassifier 30
          ([] ++ (⟨"/r0", "r0", "r0"⟩, RepoScan.openFailed) :: exEntries)).commits
        = (aggregate exClassifier 30 ([] ++ exEntries)).commits
    ∧ (aggregate exClassifier 30
          ([] ++ (⟨"/r0", "r0", "r0"⟩, RepoScan.openFailed) :: exEntries)).locally_missing_commits
        = (aggregate exClassifier 30 ([] ++ exEntries)).locally_missing_commits :=
  aggregate_repo_failures_nonfatal.2 exClassifier 30 [] exEntries
    ⟨"/r0", "r0", "r0"⟩ RepoScan.openFailed (Or.inl rfl)

/-! ### Claim C7 -/

/-- C7: `locally_missing_commits` equals the number of walk-yielded ids
that fail resolution (`none` items among the items the loop actually
processes, i.e. up to and including the first aborting commit), summed
over all repositories; and an unresolvable id is skipped, bumping only the
counter, without stopping that repository's walk. -/
theorem aggregate_missing_count :
    (∀ (c : Classifier) (now : Int) (repo : Repo) (items : List (Option CommitData)),
        (walkCommits c now repo items).2
          = (processedItems c now items).countP Option.isNone)
    ∧ (∀ (c : Classifier) (now : Int) (entries : List (Repo × RepoScan)),
        (aggregate c now entries).locally_missing_commits
          = (entries.map (fun e =>
              match e.2 with
              | RepoScan.walk items => (processedItems c now items).countP Option.isNone
              | _ => 0)).sum)
    ∧ (∀ (c : Classifier) (now : Int) (repo : Repo) (rest : List (Option CommitData)),
        walkCommits c now repo (none :: rest)
          = ((walkCommits c now repo rest).1, (walkCommits c now repo rest).2 + 1)) := by
  have hcount : ∀ (c : Classifier) (now : Int) (repo : Repo)
      (items : List (Option CommitData)),
      (walkCommits c now repo items).2
        = (processedItems c now items).countP Option.isNone := by
    intro c now repo items
    induction items with
    | nil => rfl
    | cons head rest ih =>
      cases head with
      | none => simp [walkCommits, processedItems, ih, List.countP_cons]
      | some cd =>
        by_cases hab : (classify c now cd).2 = true
        · simp [walkCommits, processedItems, hab, List.countP_cons]
        · simp [walkCommits, processedItems, hab, ih, List.countP_cons]
  refine ⟨hcount, ?_, ?_⟩
  · intro c now entries
    have hpt : ∀ e : Repo × RepoScan, (scanRepo c now e).2
        = match e.2 with
          | RepoScan.walk items => (processedItems c now items).countP Option.isNone
          | _ => 0 := by
      intro e
      rcases e with ⟨repo, st⟩
      cases st <;> simp [scanRepo, hcount]
    induction entries with
    | nil => rfl
    | cons e rest ih =>
      simp only [aggregate, List.map_cons, List.map_map, List.sum_cons,
        Function.comp] at ih ⊢
      rw [ih, hpt e]
  · intro c now repo rest
    rfl

/-! ### Claim C2 -/

/-- Auxiliary for C2: the include-merging fold of `parse`, given the
induction hypothesis for the child parses, produces exactly the
accumulator's projects followed by the concatenation of the children's
resolved project lists, and leaves the accumulator's includes untouched. -/
theorem parse_fold_spec (fs : ManifestFs) (fuel : Nat) (path : String)
    (IH : ∀ (q : String) (m : Manifest), parse fs fuel q = some m →
      specResolvedProjects fs fuel q = some m.projects) :
    ∀ (incs : List Include) (acc m : Manifest),
      incs.foldlM
        (fun m inc =>
          (parse fs fuel (withFileName path inc.name)).map (fun child => m.append child))
        acc = some m →
      ∃ childLists,
        incs.mapM (fun inc => specResolvedProjects fs fuel (withFileName path inc.name))
          = some childLists
        ∧ m.projects = acc.projects ++ childLists.flatten
        ∧ m.includes = acc.includes := by
  intro incs
  induction incs with
  | nil =>
    intro acc m h
    simp only [List.foldlM_nil, pure, Option.some_inj] at h
    subst h
    exact ⟨[], rfl, by simp, rfl⟩
  | cons inc rest ih =>
    intro acc m h
    rw [List.foldlM_cons] at h
    cases hp : parse fs fuel (withFileName path inc.name) with
    | none => rw [hp] at h; simp at h
    | some child =>
      rw [hp] at h
      simp only [Option.map_some', Option.bind_eq_bind, Option.some_bind] at h
      obtain ⟨childLists, hmap, hproj, hincl⟩ := ih (acc.append child) m h
      refine ⟨child.projects :: childLists, ?_, ?_, ?_⟩
      · rw [List.mapM_cons, IH _ _ hp, hmap]
        rfl
      · simp only [hproj, Manifest.append, List.flatten_cons, List.append_assoc]
      · simpa [Manifest.append] using hincl

/-- C2 (amended): for every manifest file whose includes transitively
resolve and parse, `parse` returns a Manifest whose projects are the union
(via append, in order) of the manifest's own project elements and,
recursively, all included manifests' projects; every include is resolved
and merged, but the resolved model still carries the root file's own
include entries in its `includes` field. -/
theorem parse_projects_union (fs : ManifestFs) (fuel : Nat) (path : String)
    (m : Manifest) (h : parse fs fuel path = some m) :
    specResolvedProjects fs fuel path = some m.projects
    ∧ ∃ raw, fs path = some raw ∧ m.includes = raw.includes := by
  induction fuel generalizing path m with
  | zero => simp [parse] at h
  | succ fuel ih =>
    have IH : ∀ (q : String) (mm : Manifest), parse fs fuel q = some mm →
        specResolvedProjects fs fuel q = some mm.projects :=
      fun q mm hq => (ih q mm hq).1
    simp only [parse] at h
    cases hraw : fs path with
    | none => rw [hraw] at h; simp at h
    | some raw =>
      rw [hraw] at h
      obtain ⟨childLists, hmap, hproj, hincl⟩ :=
        parse_fold_spec fs fuel path IH raw.includes raw m h
      constructor
      · simp only [specResolvedProjects]
        rw [hraw]
        simp only [hmap, hproj]
      · exact ⟨raw, rfl, hincl⟩

/-- C2 counterexample: resolving a root manifest with one include yields
the union of the two files' projects, but the `includes` field of the
resolved manifest still holds the root's include entry — include entries
are retained in the resolved model, contrary to the claim. -/
theorem parse_retains_includes_counterexample :
    parse exFs 2 "root.xml"
      = some { projects := [⟨"p1", "p1", none⟩, ⟨"p2", "p2", none⟩],
               includes := [⟨"child.xml"⟩] }
    ∧ (parse exFs 2 "root.xml").map Manifest.includes ≠ some [] := by
  refine ⟨by decide, by decide⟩

/-- Witness for C2's amended claim on the two-file example. -/
theorem parse_projects_union_witness :
    specResolvedProjects exFs 2 "root.xml"
      = some [⟨"p1", "p1", none⟩, ⟨"p2", "p2", none⟩]
    ∧ ∃ raw, exFs "root.xml" = some raw
        ∧ ({ projects := [⟨"p1", "p1", none⟩, ⟨"p2", "p2", none⟩],
             includes := [⟨"child.xml"⟩] } : Manifest).includes = raw.includes :=
  parse_projects_union exFs 2 "root.xml"
    { projects := [⟨"p1", "p1", none⟩, ⟨"p2", "p2", none⟩],
      includes := [⟨"child.xml"⟩] } (by decide)
